import Mathlib

/-!
Shallow embedding of the switch-isolation decision engine of
`src/backend/main.py` (FastAPI backend for the IEEE-123 reconfiguration
tool).  Bus and switch identifiers are strings; kW values and voltage
magnitudes are modelled as exact rationals; Python dicts are modelled as
association lists with last-write-wins update; the external OpenDSS
circuit is modelled as an `Oracle` record whose `solve` field maps a full
open/closed switch configuration either to a `SolverError` or to the
per-bus `VMagAngle` vectors of the solved state.  A Python exception that
the code does not catch is modelled with `Except`.
-/

set_option autoImplicit false

namespace TCC

/-- Characters of the prefix of `l` strictly before the first `'.'`: the
list-level content of Python's `bus.split('.')[0]`. -/
def takeUntilDot : List Char → List Char
  | [] => []
  | c :: cs => if c = '.' then [] else c :: takeUntilDot cs

/-- `normalize` from `src/backend/main.py` (and the identical
`normalize_bus` of `src/streamlit_app.py`):
`return bus.split('.')[0] if bus else ""`.  The argument is an
`Option String` because the Python parameter may be `None`; `None` and
`""` are both falsy, so both return `""`. -/
def normalize (bus : Option String) : String :=
  match bus with
  | none => ""
  | some s => if s = "" then "" else ⟨takeUntilDot s.data⟩

/-- Python dict update `d[k] = v` on an association-list model: the first
occurrence of the key is overwritten in place, otherwise the pair is
appended. -/
def updateAssoc {α : Type} (d : List (String × α)) (k : String) (v : α) :
    List (String × α) :=
  match d with
  | [] => [(k, v)]
  | (k', v') :: rest => if k' = k then (k, v) :: rest else (k', v') :: updateAssoc rest k v

/-- Lookup in the association-list model of a Python dict. -/
def getA {α : Type} (d : List (String × α)) (k : String) : Option α :=
  match d with
  | [] => none
  | (k', v') :: rest => if k' = k then some v' else getA rest k

/-- Python `d.get(k, dflt)`. -/
def getD {α : Type} (d : List (String × α)) (k : String) (dflt : α) : α :=
  (getA d k).getD dflt

/-- One parsed `New Load` record of `IEEE123Loads.dss`: the raw `bus1=`
field and the `kw=` value.  (Opening the file and the two regexes are
input glue; `load_loads` receives one such record per matched line.) -/
structure LoadEntry where
  bus : String
  kw : ℚ
deriving DecidableEq, Repr

/-- `load_loads` from `src/backend/main.py`: folds the parsed records into
a per-bus dict with `loads[bus] = loads.get(bus, 0) + kw`, normalizing the
bus identifier first.  (A missing loads file yields the empty record
list.) -/
def load_loads (records : List LoadEntry) : List (String × ℚ) :=
  records.foldl
    (fun loads e =>
      updateAssoc loads (normalize (some e.bus))
        (getD loads (normalize (some e.bus)) 0 + e.kw))
    []

/-- Python `max` over a list of magnitudes.  Python raises `ValueError` on
an empty list (a solved bus always reports at least one phase magnitude);
the model totalizes that case to `0`. -/
def pyMax : List ℚ → ℚ
  | [] => 0
  | x :: xs => xs.foldl max x

/-- Python slice `[0::2]`: the elements at even indices.  OpenDSS
`VMagAngle` interleaves magnitude and angle; this keeps the magnitudes. -/
def stride2 : List ℚ → List ℚ
  | [] => []
  | [x] => [x]
  | x :: _ :: rest => x :: stride2 rest

/-- `barras_por_fluxo` from `src/backend/main.py`: classifies every
circuit bus by the voltage criterion `max(mags) < eps_volt`, returning the
pair (isolated, energized) of normalized bus names in circuit order.
`vmagAngle b` is bus `b`'s raw `VMagAngle` vector.  (The `try`/`except` in
the source only chooses between the two OpenDSS Python APIs; both branches
compute the same classification.) -/
def barras_por_fluxo (allBuses : List String) (vmagAngle : String → List ℚ)
    (eps_volt : ℚ) : List String × List String :=
  match allBuses with
  | [] => ([], [])
  | b :: rest =>
    let p := barras_por_fluxo rest vmagAngle eps_volt
    if pyMax (stride2 (vmagAngle b)) < eps_volt then
      (normalize (some b) :: p.1, p.2)
    else
      (p.1, normalize (some b) :: p.2)

/-- The power-flow solve step failing (an OpenDSS error raised through
`Text.Command("Solve")`). -/
abbrev SolverError := Unit

/-- The external OpenDSS circuit as the engine sees it through
`opendssdirect`: the compiled master's bus list, its line list with the
endpoint fields `Bus1`/`Bus2`, the switch open/closed state right after
`Compile`, and the solver, mapping a full open/closed switch configuration
either to a `SolverError` or to the per-bus `VMagAngle` vectors of the
solved state. -/
structure Oracle where
  allBusNames : List String
  lineNames : List String
  lineBus1 : String → String
  lineBus2 : String → String
  compiledOpen : String → Bool
  solve : (String → Bool) → Except SolverError (String → List ℚ)

/-- `open_switch` at configuration level: the named switch becomes open
(the source opens both terminals and every conductor of the line). -/
def openSw (name : String) (st : String → Bool) : String → Bool :=
  fun sw => if sw = name then true else st sw

/-- `close_switch` at configuration level: the named switch becomes
closed. -/
def closeSw (name : String) (st : String → Bool) : String → Bool :=
  fun sw => if sw = name then false else st sw

/-- The six normally-closed (NF) switches the backend scans. -/
def nfList : List String := ["sw1", "sw2", "sw3", "sw4", "sw5", "sw6"]

/-- The two normally-open (NA) switches. -/
def naList : List String := ["sw7", "sw8"]

/-- `dssod.Basic.ClearAll()` followed by `Compile MASTER`: the circuit is
rebuilt from the master file, so the switch state becomes the compiled
nominal state whatever the previous state `_pre` was. -/
def clearAllCompile (o : Oracle) (_pre : String → Bool) : String → Bool :=
  o.compiledOpen

/-- The switch configuration `simulate_nf` builds: recompile, close
`sw1..sw6` in order, open `sw7` and `sw8`, then force-open the candidate
`nf`. -/
def setupConfig (o : Oracle) (pre : String → Bool) (nf : String) : String → Bool :=
  openSw nf
    (naList.foldl (fun st na => openSw na st)
      (nfList.foldl (fun st sw => closeSw sw st) (clearAllCompile o pre)))

/-- The value `simulate_nf` returns: Python's `(set(isol), kW)`. -/
structure SimResult where
  isol : Finset String
  kW : ℚ
deriving DecidableEq

/-- `simulate_nf` from `src/backend/main.py`, threading the circuit switch
state: recompile (discarding the pre-existing state), restore the nominal
state, force-open the candidate, solve, classify the buses with
`barras_por_fluxo` at its default threshold `eps_volt = 1.0`, and sum
`loads.get(b, 0)` over the isolated list.  A `SolverError` propagates:
the Python code has no handler around `Solve`. -/
def simulate_nf (o : Oracle) (nf : String) (loads : List (String × ℚ))
    (pre : String → Bool) : Except SolverError (SimResult × (String → Bool)) :=
  let st := setupConfig o pre nf
  match o.solve st with
  | .error e => .error e
  | .ok vm =>
    let isolList := (barras_por_fluxo o.allBusNames vm 1).1
    let kW := (isolList.map (fun b => getD loads b 0)).sum
    .ok (⟨isolList.toFinset, kW⟩, st)

/-- The result part of `simulate_nf`. -/
def simRes (o : Oracle) (nf : String) (loads : List (String × ℚ))
    (pre : String → Bool) : Except SolverError SimResult :=
  (simulate_nf o nf loads pre).map Prod.fst

/-- The candidate loop of `isolamento`: for each NF in order, simulate,
and keep the tuple `(nf, kW, len(isol))` when both span endpoints are in
the isolated set.  An uncaught `SolverError` aborts the loop. -/
def scanNFs (o : Oracle) (loads : List (String × ℚ)) (u v : String) :
    List String → (String → Bool) →
    Except SolverError (List (String × ℚ × ℕ) × (String → Bool))
  | [], st => .ok ([], st)
  | nf :: rest, st =>
    match simulate_nf o nf loads st with
    | .error e => .error e
    | .ok (r, st') =>
      match scanNFs o loads u v rest st' with
      | .error e => .error e
      | .ok (cands, st'') =>
        if u ∈ r.isol ∧ v ∈ r.isol then .ok ((nf, r.kW, r.isol.card) :: cands, st'')
        else .ok (cands, st'')

/-- The candidate-list part of the scan. -/
def scanRes (o : Oracle) (loads : List (String × ℚ)) (u v : String)
    (nfs : List String) (st : String → Bool) :
    Except SolverError (List (String × ℚ × ℕ)) :=
  (scanNFs o loads u v nfs st).map Prod.fst

/-- Strict comparison of Python tuples `(kW, len(isol))`: the sort key of
`candidatos.sort(key=lambda x:(x[1],x[2]))`. -/
def lt2 (a b : ℚ × ℕ) : Prop := a.1 < b.1 ∨ (a.1 = b.1 ∧ a.2 < b.2)

instance lt2.decRel : DecidableRel lt2 := fun _ _ => by unfold lt2; infer_instance

/-- Lexicographic strict order on character lists by code point: the
semantics of Python's `<` on strings. -/
def listLtB : List Char → List Char → Bool
  | [], [] => false
  | [], _ :: _ => true
  | _ :: _, [] => false
  | a :: as, b :: bs =>
    if a.toNat < b.toNat then true
    else if b.toNat < a.toNat then false
    else listLtB as bs

/-- Python's `<` on switch identifiers. -/
def idLt (a b : String) : Bool := listLtB a.data b.data

/-- Python's `<=` on switch identifiers. -/
def idLe (a b : String) : Prop := idLt a b = true ∨ a = b

/-- The ranking key extended by the switch identifier: the spec's tuple
(interruptedKW asc, |isolatedBuses| asc, switchId asc), as a weak order on
candidate triples `(nf, kW, n)`. -/
def le3 (a b : String × ℚ × ℕ) : Prop :=
  lt2 (a.2.1, a.2.2) (b.2.1, b.2.2) ∨ ((a.2.1, a.2.2) = (b.2.1, b.2.2) ∧ idLe a.1 b.1)

/-- One insertion step of a stable sort by the key `(kW, len(isol))`: the
new element goes after every element whose key is less or equal, which is
the output order of Python's stable `list.sort`. -/
def insCand (x : String × ℚ × ℕ) : List (String × ℚ × ℕ) → List (String × ℚ × ℕ)
  | [] => [x]
  | y :: ys =>
    if lt2 (x.2.1, x.2.2) (y.2.1, y.2.2) then x :: y :: ys else y :: insCand x ys

/-- Stable sort by `(kW, len(isol))`, inserting the elements in their
original order: the extensional behavior of Python's stable `list.sort`
with `key=lambda x:(x[1],x[2])`. -/
def sortCands (l : List (String × ℚ × ℕ)) : List (String × ℚ × ℕ) :=
  l.foldl (fun acc x => insCand x acc) []

/-- The three possible JSON bodies of the `/isolamento` endpoint. -/
inductive IsoResponse where
  | erro (msg : String)
  | nenhuma
  | winner (vao u v nf : String) (barras : Finset String) (kw : ℚ)
deriving DecidableEq

/-- The `topo` dict of `isolamento`: every compiled line name mapped to its
normalized endpoints.  (The `if not name.lower().startswith("l")` branch of
the source writes a placeholder that the next statement overwrites
unconditionally, so it has no effect on the final dict.) -/
def buildTopo (o : Oracle) : List (String × (String × String)) :=
  o.lineNames.foldl
    (fun t name =>
      updateAssoc t name
        (normalize (some (o.lineBus1 name)), normalize (some (o.lineBus2 name))))
    []

/-- The `/isolamento` endpoint of `src/backend/main.py`: recompile, build
`topo`, reject an unknown span with the `erro` body, scan the six NFs,
return `nenhuma` ("nenhuma_nf_isola_vao") when no candidate isolates both
endpoints, otherwise sort by `(kW, len(isol))`, re-simulate the first
candidate and return it as the winner.  An uncaught `SolverError`
propagates out of the whole query. -/
def isolamento (o : Oracle) (records : List LoadEntry) (vao : String)
    (pre : String → Bool) : Except SolverError IsoResponse :=
  let st0 := clearAllCompile o pre
  match getA (buildTopo o) vao with
  | none => .ok (.erro ("Vão " ++ vao ++ " não encontrado."))
  | some uv =>
    let loads := load_loads records
    match scanNFs o loads uv.1 uv.2 nfList st0 with
    | .error e => .error e
    | .ok (cands, st') =>
      if cands = [] then .ok .nenhuma
      else
        match sortCands cands with
        | [] => .ok .nenhuma
        | best :: _ =>
          match simulate_nf o best.1 loads st' with
          | .error e => .error e
          | .ok (r, _) => .ok (.winner vao uv.1 uv.2 best.1 r.isol r.kW)

/-- Instrumentation of the candidate loop: the candidate identifiers passed
to `simulate_nf`, in call order (an uncaught `SolverError` cuts the loop
short right after the failing call). -/
def scanTrace (o : Oracle) (loads : List (String × ℚ)) :
    List String → (String → Bool) → List String
  | [], _ => []
  | nf :: rest, st =>
    match simulate_nf o nf loads st with
    | .error _ => [nf]
    | .ok (_, st') => nf :: scanTrace o loads rest st'

/-- Instrumentation of `isolamento`: the full sequence of candidate
identifiers passed to `simulate_nf` (equivalently, of solver runs) while one
`/isolamento` query is answered, in call order.  It mirrors the control flow
of `isolamento`: the scan over `nfList`, then — when a winner exists — the
extra re-simulation of the winning candidate at line 189 of the source. -/
def isolamentoTrace (o : Oracle) (records : List LoadEntry) (vao : String)
    (pre : String → Bool) : List String :=
  let st0 := clearAllCompile o pre
  match getA (buildTopo o) vao with
  | none => []
  | some uv =>
    let loads := load_loads records
    let tr := scanTrace o loads nfList st0
    match scanNFs o loads uv.1 uv.2 nfList st0 with
    | .error _ => tr
    | .ok (cands, _) =>
      if cands = [] then tr
      else
        match sortCands cands with
        | [] => tr
        | best :: _ => tr ++ [best.1]

deriving instance DecidableEq for Except

/-- Concrete circuit used to instantiate theorems: three buses, one line
`l1` between `b1` and `b2`; opening candidate `sw1` de-energizes every bus,
while every other configuration leaves all buses at magnitude 10. -/
def oW : Oracle where
  allBusNames := ["b1", "b2", "b3"]
  lineNames := ["l1"]
  lineBus1 := fun _ => "b1.1"
  lineBus2 := fun _ => "b2.2"
  compiledOpen := fun _ => false
  solve := fun st => .ok (fun _ => if st "sw1" then [0, 0] else [10, 0])

/-- Concrete circuit whose solver fails exactly when `sw1` is open: the
evaluation of candidate `sw1` raises a `SolverError`. -/
def oFail : Oracle where
  allBusNames := ["b1", "b2"]
  lineNames := ["l1"]
  lineBus1 := fun _ => "b1"
  lineBus2 := fun _ => "b2"
  compiledOpen := fun _ => false
  solve := fun st => if st "sw1" then .error () else .ok (fun _ => [10, 0])

/-- Concrete circuit where the solver always converges and no bus is ever
de-energized: no candidate isolates any span. -/
def oNone : Oracle where
  allBusNames := ["b1", "b2"]
  lineNames := ["l1"]
  lineBus1 := fun _ => "b1"
  lineBus2 := fun _ => "b2"
  compiledOpen := fun _ => false
  solve := fun _ => .ok (fun _ => [10, 0])

/-- Concrete circuit with one nonzero load: opening `sw1` de-energizes both
buses, and bus `b1` carries 7 kW. -/
def oLoad : Oracle where
  allBusNames := ["b1", "b2"]
  lineNames := ["l1"]
  lineBus1 := fun _ => "b1"
  lineBus2 := fun _ => "b2"
  compiledOpen := fun _ => false
  solve := fun st => .ok (fun _ => if st "sw1" then [0, 0] else [10, 0])

theorem not_mem_takeUntilDot (l : List Char) : '.' ∉ takeUntilDot l := by
  induction l with
  | nil => simp [takeUntilDot]
  | cons c cs ih =>
    rw [takeUntilDot]
    by_cases h : c = '.'
    · simp [h]
    · simp only [if_neg h, List.mem_cons, not_or]
      exact ⟨fun hc => h hc.symm, ih⟩

theorem takeUntilDot_of_not_mem {l : List Char} (h : '.' ∉ l) : takeUntilDot l = l := by
  induction l with
  | nil => rfl
  | cons c cs ih =>
    simp only [List.mem_cons, not_or] at h
    rw [takeUntilDot, if_neg (fun hc => h.1 hc.symm), ih h.2]

theorem takeUntilDot_idem (l : List Char) :
    takeUntilDot (takeUntilDot l) = takeUntilDot l :=
  takeUntilDot_of_not_mem (not_mem_takeUntilDot l)

theorem takeUntilDot_append (l : List Char) :
    ∃ t, l = takeUntilDot l ++ t ∧ (t = [] ∨ ∃ u, t = '.' :: u) := by
  induction l with
  | nil => exact ⟨[], rfl, Or.inl rfl⟩
  | cons c cs ih =>
    by_cases h : c = '.'
    · subst h
      exact ⟨'.' :: cs, by rw [takeUntilDot, if_pos rfl]; rfl, Or.inr ⟨cs, rfl⟩⟩
    · obtain ⟨t, ht, hca⟩ := ih
      refine ⟨t, ?_, hca⟩
      rw [takeUntilDot, if_neg h, List.cons_append, ← ht]

theorem mk_eq_empty_iff (l : List Char) : (⟨l⟩ : String) = "" ↔ l = [] := by
  constructor
  · intro h
    have := congrArg String.data h
    simpa using this
  · intro h
    subst h
    rfl

theorem normalize_data (s : String) :
    (normalize (some s)).data = takeUntilDot s.data := by
  rw [normalize]
  by_cases h : s = ""
  · subst h
    rfl
  · rw [if_neg h]

/-- C10.  Bus-identifier normalization is total by construction and:
`normalize` of `None` and of the empty string is the empty string; the
result never contains the `'.'` separator; normalizing twice equals
normalizing once; and for every string the result is exactly the prefix of
the input that precedes the first `'.'` (the input is the result followed
by a remainder that is either empty or starts with `'.'`). -/
theorem C10_normalize_total_idempotent :
    (normalize none = "" ∧ normalize (some "") = "") ∧
    (∀ b : Option String, '.' ∉ (normalize b).data) ∧
    (∀ b : Option String, normalize (some (normalize b)) = normalize b) ∧
    (∀ s : String, ∃ t, s.data = (normalize (some s)).data ++ t ∧
      (t = [] ∨ ∃ u, t = '.' :: u)) := by
  refine ⟨⟨rfl, rfl⟩, ?_, ?_, ?_⟩
  · intro b
    match b with
    | none => simp [normalize]
    | some s => rw [normalize_data]; exact not_mem_takeUntilDot s.data
  · intro b
    match b with
    | none => rfl
    | some s =>
      have hd : (normalize (some s)).data = takeUntilDot s.data := normalize_data s
      by_cases h : normalize (some s) = ""
      · rw [h]; rfl
      · rw [normalize, if_neg h, hd, takeUntilDot_idem]
        apply String.ext
        rw [hd]
  · intro s
    obtain ⟨t, ht, hca⟩ := takeUntilDot_append s.data
    exact ⟨t, by rw [normalize_data]; exact ht, hca⟩

theorem getA_updateAssoc_self {α : Type} (d : List (String × α)) (k : String) (v : α) :
    getA (updateAssoc d k v) k = some v := by
  induction d with
  | nil => simp [updateAssoc, getA]
  | cons p rest ih =>
    obtain ⟨k', v'⟩ := p
    by_cases h : k' = k
    · simp [updateAssoc, h, getA]
    · simp [updateAssoc, h, getA, ih]

theorem getA_updateAssoc_ne {α : Type} (d : List (String × α)) (k k' : String) (v : α)
    (h : k' ≠ k) : getA (updateAssoc d k v) k' = getA d k' := by
  induction d with
  | nil =>
    simp only [updateAssoc, getA]
    rw [if_neg (fun hk => h hk.symm)]
  | cons p rest ih =>
    obtain ⟨a, b⟩ := p
    by_cases ha : a = k
    · subst ha
      simp only [updateAssoc, if_pos rfl, getA]
      rw [if_neg (fun hk => h hk.symm), if_neg (fun hk => h hk.symm)]
    · simp only [updateAssoc, if_neg ha, getA]
      by_cases hb : a = k'
      · rw [if_pos hb, if_pos hb]
      · rw [if_neg hb, if_neg hb, ih]

theorem getD_load_loads_go (records : List LoadEntry) (d : List (String × ℚ)) (b : String) :
    getD (records.foldl (fun loads e =>
        updateAssoc loads (normalize (some e.bus))
          (getD loads (normalize (some e.bus)) 0 + e.kw)) d) b 0
      = getD d b 0
        + ((records.filter (fun e => normalize (some e.bus) == b)).map LoadEntry.kw).sum := by
  induction records generalizing d with
  | nil => simp
  | cons e rest ih =>
    rw [List.foldl_cons, ih]
    by_cases h : normalize (some e.bus) = b
    · rw [List.filter_cons_of_pos (by simpa using h)]
      simp only [List.map_cons, List.sum_cons, getD, h, getA_updateAssoc_self, Option.getD_some]
      ring
    · rw [List.filter_cons_of_neg (by simpa using h)]
      have hne : getA (updateAssoc d (normalize (some e.bus))
          (getD d (normalize (some e.bus)) 0 + e.kw)) b = getA d b :=
        getA_updateAssoc_ne _ _ _ _ (fun hb => h hb.symm)
      simp only [getD] at hne ⊢
      rw [hne]

theorem getD_load_loads (records : List LoadEntry) (b : String) :
    getD (load_loads records) b 0
      = ((records.filter (fun e => normalize (some e.bus) == b)).map LoadEntry.kw).sum := by
  have h := getD_load_loads_go records [] b
  simpa [load_loads, getD, getA] using h

/-- C9.  The Load Model sums multiple entries on the same (normalized) bus
into one effective per-bus demand; a bus with no load record defaults to
0 kW; and the aggregated per-bus value is invariant under permutation of
the input load records. -/
theorem C9_load_aggregation :
    (∀ (records : List LoadEntry) (b : String),
      getD (load_loads records) b 0
        = ((records.filter (fun e => normalize (some e.bus) == b)).map LoadEntry.kw).sum) ∧
    (∀ (records : List LoadEntry) (b : String),
      b ∉ records.map (fun e => normalize (some e.bus)) →
        getD (load_loads records) b 0 = 0) ∧
    (∀ (r₁ r₂ : List LoadEntry), r₁.Perm r₂ →
      ∀ b : String, getD (load_loads r₁) b 0 = getD (load_loads r₂) b 0) := by
  refine ⟨getD_load_loads, ?_, ?_⟩
  · intro records b hb
    rw [getD_load_loads]
    have : records.filter (fun e => normalize (some e.bus) == b) = [] := by
      rw [List.filter_eq_nil_iff]
      intro e he hbe
      exact hb (List.mem_map.mpr ⟨e, he, by simpa using hbe⟩)
    rw [this]
    rfl
  · intro r₁ r₂ hperm b
    rw [getD_load_loads, getD_load_loads]
    exact ((hperm.filter _).map _).sum_eq

/-- Witness for C9: a two-record list and its transposition aggregate to
the same per-bus demand (the records mention bus `a` through a phase
qualifier, exercising normalization as well). -/
theorem C9_load_aggregation_witness :
    ([(⟨"a.1", 5⟩ : LoadEntry), ⟨"a", 2⟩].Perm [⟨"a", 2⟩, ⟨"a.1", 5⟩]) ∧
    getD (load_loads [(⟨"a.1", 5⟩ : LoadEntry), ⟨"a", 2⟩]) "a" 0
      = getD (load_loads [(⟨"a", 2⟩ : LoadEntry), ⟨"a.1", 5⟩]) "a" 0 := by
  have hperm : ([(⟨"a.1", 5⟩ : LoadEntry), ⟨"a", 2⟩].Perm [⟨"a", 2⟩, ⟨"a.1", 5⟩]) :=
    List.Perm.swap _ _ _
  exact ⟨hperm, C9_load_aggregation.2.2 _ _ hperm "a"⟩

theorem barras_fst (bs : List String) (vm : String → List ℚ) (eps : ℚ) :
    (barras_por_fluxo bs vm eps).1
      = (bs.filter (fun b => decide (pyMax (stride2 (vm b)) < eps))).map
          (fun b => normalize (some b)) := by
  induction bs with
  | nil => rfl
  | cons b rest ih =>
    by_cases h : pyMax (stride2 (vm b)) < eps
    · rw [List.filter_cons_of_pos (by simpa using h)]
      simp only [barras_por_fluxo, if_pos h, List.map_cons, ih]
    · rw [List.filter_cons_of_neg (by simpa using h)]
      simp only [barras_por_fluxo, if_neg h, ih]

theorem barras_snd (bs : List String) (vm : String → List ℚ) (eps : ℚ) :
    (barras_por_fluxo bs vm eps).2
      = (bs.filter (fun b => decide (¬ pyMax (stride2 (vm b)) < eps))).map
          (fun b => normalize (some b)) := by
  induction bs with
  | nil => rfl
  | cons b rest ih =>
    by_cases h : pyMax (stride2 (vm b)) < eps
    · rw [List.filter_cons_of_neg (by simpa using h)]
      simp only [barras_por_fluxo, if_pos h, ih]
    · rw [List.filter_cons_of_pos (by simpa using h)]
      simp only [barras_por_fluxo, if_neg h, List.map_cons, ih]

theorem simulate_nf_solve_ok (o : Oracle) (nf : String) (loads : List (String × ℚ))
    (pre : String → Bool) (vm : String → List ℚ)
    (h : o.solve (setupConfig o pre nf) = .ok vm) :
    simulate_nf o nf loads pre
      = .ok (⟨((barras_por_fluxo o.allBusNames vm 1).1).toFinset,
          (((barras_por_fluxo o.allBusNames vm 1).1).map (fun b => getD loads b 0)).sum⟩,
          setupConfig o pre nf) := by
  simp only [simulate_nf, h]

theorem simulate_nf_solve_error (o : Oracle) (nf : String) (loads : List (String × ℚ))
    (pre : String → Bool) (e : SolverError)
    (h : o.solve (setupConfig o pre nf) = .error e) :
    simulate_nf o nf loads pre = .error e := by
  simp only [simulate_nf, h]

/-- C4.  First part: `barras_por_fluxo` classifies every bus by the single
threshold comparison `max(mags) < eps_volt` — the isolated component is
exactly the below-threshold buses and the energized component exactly the
rest.  Second part: at the engine's sole isolation-decision site
(`simulate_nf`, which calls `barras_por_fluxo(dss)` with its default
`eps_volt = 1.0`), a bus is in the isolated set iff it is the normalization
of a circuit bus whose solved magnitude maximum is below that same fixed
threshold 1. -/
theorem C4_isolation_threshold :
    (∀ (bs : List String) (vm : String → List ℚ) (eps : ℚ),
      (barras_por_fluxo bs vm eps).1
        = (bs.filter (fun b => decide (pyMax (stride2 (vm b)) < eps))).map
            (fun b => normalize (some b)) ∧
      (barras_por_fluxo bs vm eps).2
        = (bs.filter (fun b => decide (¬ pyMax (stride2 (vm b)) < eps))).map
            (fun b => normalize (some b))) ∧
    (∀ (o : Oracle) (nf : String) (loads : List (String × ℚ)) (pre : String → Bool)
       (vm : String → List ℚ) (r : SimResult),
      o.solve (setupConfig o pre nf) = .ok vm →
      simRes o nf loads pre = .ok r →
      ∀ b, b ∈ r.isol ↔
        ∃ raw ∈ o.allBusNames, normalize (some raw) = b ∧ pyMax (stride2 (vm raw)) < 1) := by
  refine ⟨fun bs vm eps => ⟨barras_fst bs vm eps, barras_snd bs vm eps⟩, ?_⟩
  intro o nf loads pre vm r hsolve hok b
  rw [simRes, simulate_nf_solve_ok o nf loads pre vm hsolve] at hok
  simp only [Except.map] at hok
  cases hok
  simp only [List.mem_toFinset, barras_fst, List.mem_map, List.mem_filter,
    decide_eq_true_eq]
  constructor
  · rintro ⟨raw, ⟨hmem, hlt⟩, hnorm⟩
    exact ⟨raw, hmem, hnorm, hlt⟩
  · rintro ⟨raw, hmem, hnorm, hlt⟩
    exact ⟨raw, ⟨hmem, hlt⟩, hnorm⟩

/-- The solved magnitude vectors of `oW` when `sw1` is open. -/
def vmW : String → List ℚ := fun _ => [0, 0]

/-- Witness for C4: on the concrete circuit `oW` with candidate `sw1` the
hypotheses hold and bus `b1` is isolated exactly by the threshold-1
criterion. -/
theorem C4_isolation_threshold_witness :
    (oW.solve (setupConfig oW (fun _ => false) "sw1") = .ok vmW) ∧
    (simRes oW "sw1" [] (fun _ => false) = .ok ⟨{"b1", "b2", "b3"}, 0⟩) ∧
    ("b1" ∈ (⟨{"b1", "b2", "b3"}, 0⟩ : SimResult).isol ↔
      ∃ raw ∈ oW.allBusNames, normalize (some raw) = "b1" ∧
        pyMax (stride2 (vmW raw)) < 1) := by
  have hsolve : oW.solve (setupConfig oW (fun _ => false) "sw1") = .ok vmW := rfl
  have hok : simRes oW "sw1" [] (fun _ => false) = .ok ⟨{"b1", "b2", "b3"}, 0⟩ := by
    norm_num [simRes, simulate_nf, oW, setupConfig, nfList, naList, clearAllCompile,
      openSw, closeSw, barras_por_fluxo, pyMax, stride2, normalize, takeUntilDot,
      getD, getA, Except.map]
    decide
  exact ⟨hsolve, hok,
    C4_isolation_threshold.2 oW "sw1" [] (fun _ => false) vmW _ hsolve hok "b1"⟩

/-- C3.  Whenever a candidate evaluation succeeds (and distinct circuit
buses stay distinct after normalization, as they do in OpenDSS, whose bus
names carry no `'.'`), the reported `interruptedKW` equals the `Finset` sum
of the Load Model's per-bus values over the isolated-bus set: each isolated
bus contributes exactly once, none is omitted, and a bus without a load
entry contributes `loads.get(b, 0) = 0`. -/
theorem C3_interrupted_kw_conservation (o : Oracle) (nf : String)
    (records : List LoadEntry) (pre : String → Bool) (r : SimResult)
    (hdist : (o.allBusNames.map (fun b => normalize (some b))).Nodup)
    (hok : simRes o nf (load_loads records) pre = .ok r) :
    r.kW = r.isol.sum (fun b => getD (load_loads records) b 0) := by
  cases hsolve : o.solve (setupConfig o pre nf) with
  | error e =>
    rw [simRes, simulate_nf_solve_error o nf _ pre e hsolve] at hok
    cases hok
  | ok vm =>
    rw [simRes, simulate_nf_solve_ok o nf _ pre vm hsolve] at hok
    simp only [Except.map] at hok
    cases hok
    have hnd : ((barras_por_fluxo o.allBusNames vm 1).1).Nodup := by
      rw [barras_fst]
      exact List.Nodup.sublist (List.Sublist.map _ (List.filter_sublist _)) hdist
    exact (List.sum_toFinset _ hnd).symm

/-- Witness for C3: on  the circuit `oLoad` with the single 7 kW record on
`b1`, candidate `sw1` isolates `{b1, b2}` and reports 7 kW, the sum of the
loads over the isolated set. -/
theorem C3_interrupted_kw_conservation_witness :
    ((oLoad.allBusNames.map (fun b => normalize (some b))).Nodup) ∧
    (simRes oLoad "sw1" (load_loads [⟨"b1", 7⟩]) (fun _ => false)
      = .ok ⟨{"b1", "b2"}, 7⟩) ∧
    (⟨{"b1", "b2"}, 7⟩ : SimResult).kW
      = (⟨{"b1", "b2"}, 7⟩ : SimResult).isol.sum
          (fun b => getD (load_loads [⟨"b1", 7⟩]) b 0) := by
  have hdist : ((oLoad.allBusNames.map (fun b => normalize (some b))).Nodup) := by
    decide
  have hok : simRes oLoad "sw1" (load_loads [⟨"b1", 7⟩]) (fun _ => false)
      = .ok ⟨{"b1", "b2"}, 7⟩ := by
    norm_num [simRes, simulate_nf, oLoad, setupConfig, nfList, naList, clearAllCompile,
      openSw, closeSw, barras_por_fluxo, pyMax, stride2, normalize, takeUntilDot,
      getD, getA, load_loads, updateAssoc, Except.map]
    decide
  exact ⟨hdist, hok,
    C3_interrupted_kw_conservation oLoad "sw1" [⟨"b1", 7⟩] (fun _ => false) _ hdist hok⟩

theorem getA_foldl_upd_none {α : Type} (f : String → α) (names : List String)
    (d : List (String × α)) (k : String) :
    getA (names.foldl (fun t n => updateAssoc t n (f n)) d) k = none ↔
      (getA d k = none ∧ k ∉ names) := by
  induction names generalizing d with
  | nil => simp
  | cons n rest ih =>
    rw [List.foldl_cons, ih]
    by_cases h : k = n
    · subst h
      simp [getA_updateAssoc_self]
    · rw [getA_updateAssoc_ne d n k (f n) h]
      simp [h]

theorem getA_buildTopo_none (o : Oracle) (vao : String) (h : vao ∉ o.lineNames) :
    getA (buildTopo o) vao = none := by
  rw [buildTopo]
  exact (getA_foldl_upd_none
    (fun name => (normalize (some (o.lineBus1 name)), normalize (some (o.lineBus2 name))))
    o.lineNames [] vao).mpr ⟨rfl, h⟩

/-- C8.  A query naming a span that is not among the compiled line names is
answered with the explicit topology-error body
`{"erro": "Vão <vao> não encontrado."}`: an error outcome surfaced to the
caller, with no scan run, no winner selected, and no retry. -/
theorem C8_unknown_span_topology_error (o : Oracle) (records : List LoadEntry)
    (vao : String) (pre : String → Bool) (h : vao ∉ o.lineNames) :
    isolamento o records vao pre
      = .ok (.erro ("Vão " ++ vao ++ " não encontrado.")) := by
  simp only [isolamento, getA_buildTopo_none o vao h]

/-- Witness for C8: the span `zz` is not a line of `oW`, so the query
returns the explicit error body. -/
theorem C8_unknown_span_topology_error_witness :
    ("zz" ∉ oW.lineNames) ∧
    isolamento oW [] "zz" (fun _ => false)
      = .ok (.erro ("Vão " ++ "zz" ++ " não encontrado.")) := by
  have h : ("zz" : String) ∉ oW.lineNames := by decide
  exact ⟨h, C8_unknown_span_topology_error oW [] "zz" (fun _ => false) h⟩

theorem baseline_apply (o : Oracle) (sw : String) :
    (naList.foldl (fun st na => openSw na st)
        (nfList.foldl (fun st s => closeSw s st) o.compiledOpen)) sw
      = if sw ∈ naList then true
        else if sw ∈ nfList then false
        else o.compiledOpen sw := by
  simp only [naList, nfList, List.foldl_cons, List.foldl_nil, openSw, closeSw,
    List.mem_cons, List.not_mem_nil, or_false]
  by_cases h8 : sw = "sw8"
  · simp [h8]
  by_cases h7 : sw = "sw7"
  · simp [h7, h8]
  by_cases h6 : sw = "sw6"
  · simp [h6, h7, h8]
  by_cases h5 : sw = "sw5"
  · simp [h5, h6, h7, h8]
  by_cases h4 : sw = "sw4"
  · simp [h4, h5, h6, h7, h8]
  by_cases h3 : sw = "sw3"
  · simp [h3, h4, h5, h6, h7, h8]
  by_cases h2 : sw = "sw2"
  · simp [h2, h3, h4, h5, h6, h7, h8]
  by_cases h1 : sw = "sw1"
  · simp [h1, h2, h3, h4, h5, h6, h7, h8]
  simp [h1, h2, h3, h4, h5, h6, h7, h8]

/-- C6.  Each candidate evaluation first discards the pre-existing circuit
state (`ClearAll` + `Compile`) and rebuilds the baseline — all NF closed,
all NA open — before force-opening exactly the candidate, so: the result of
`simulate_nf` (and its post-state) is independent of the prior switch
state; a whole `/isolamento` query is likewise independent of the prior
state, hence repeated scans over the same span on the same snapshot return
the same winner; and the configuration solved for candidate `nf` opens
exactly `nf` and the NA switches, closes the other NF switches, and leaves
every other switch at its compiled state. -/
theorem C6_reset_idempotence :
    (∀ (o : Oracle) (nf : String) (loads : List (String × ℚ))
        (pre₁ pre₂ : String → Bool),
      simulate_nf o nf loads pre₁ = simulate_nf o nf loads pre₂) ∧
    (∀ (o : Oracle) (records : List LoadEntry) (vao : String)
        (pre₁ pre₂ : String → Bool),
      isolamento o records vao pre₁ = isolamento o records vao pre₂) ∧
    (∀ (o : Oracle) (pre : String → Bool) (nf sw : String),
      setupConfig o pre nf sw
        = if sw = nf then true
          else if sw ∈ naList then true
          else if sw ∈ nfList then false
          else o.compiledOpen sw) := by
  refine ⟨fun _ _ _ _ _ => rfl, fun _ _ _ _ _ => rfl, ?_⟩
  intro o pre nf sw
  by_cases h : sw = nf
  · simp [setupConfig, openSw, h]
  · simp only [setupConfig, openSw, clearAllCompile, if_neg h]
    exact baseline_apply o sw

theorem simRes_state_indep (o : Oracle) (nf : String) (loads : List (String × ℚ))
    (s₁ s₂ : String → Bool) : simRes o nf loads s₁ = simRes o nf loads s₂ := rfl

theorem scanNFs_ok_nil (o : Oracle) (loads : List (String × ℚ)) (u v : String) :
    ∀ (nfs : List String) (st st' : String → Bool),
      scanNFs o loads u v nfs st = .ok ([], st') →
      ∀ nf ∈ nfs, ∀ r, simRes o nf loads st = .ok r →
        ¬(u ∈ r.isol ∧ v ∈ r.isol) := by
  intro nfs
  induction nfs with
  | nil => intro st st' _ nf hmem; cases hmem
  | cons nf0 rest ih =>
    intro st st' h nf hmem r hr
    simp only [scanNFs] at h
    cases hsim : simulate_nf o nf0 loads st with
    | error e => simp only [hsim] at h; cases h
    | ok p =>
      obtain ⟨r0, st0⟩ := p
      simp only [hsim] at h
      cases hrest : scanNFs o loads u v rest st0 with
      | error e => simp only [hrest] at h; cases h
      | ok q =>
        obtain ⟨cands', st''⟩ := q
        simp only [hrest] at h
        by_cases hc : u ∈ r0.isol ∧ v ∈ r0.isol
        · rw [if_pos hc] at h
          simp at h
        · rw [if_neg hc] at h
          simp only [Except.ok.injEq, Prod.mk.injEq] at h
          obtain ⟨hcands, hst⟩ := h
          rcases List.mem_cons.mp hmem with hcase | hcase
          · subst hcase
            have hr0 : simRes o nf loads st = .ok r0 := by
              rw [simRes, hsim]; rfl
            rw [hr0] at hr
            simp only [Except.ok.injEq] at hr
            subst hr
            exact hc
          · have hrest' : scanNFs o loads u v rest st0 = .ok ([], st') := by
              rw [hrest, hcands, hst]
            exact ih st0 st' hrest' nf hcase r
              ((simRes_state_indep o nf loads st0 st).trans hr)

/-- C5.  When the topology lookup succeeds and the full candidate scan
completes with an empty candidate list, the query answers with the explicit
`{"resultado": "nenhuma_nf_isola_vao"}` body — not an error and not an
arbitrarily chosen candidate — and indeed the empty scan means exactly that
no candidate's isolated set contained both span endpoints. -/
theorem C5_no_isolating_switch (o : Oracle) (records : List LoadEntry)
    (vao : String) (pre : String → Bool) (u v : String)
    (htopo : getA (buildTopo o) vao = some (u, v))
    (hscan : scanRes o (load_loads records) u v nfList (clearAllCompile o pre)
      = .ok []) :
    isolamento o records vao pre = .ok .nenhuma ∧
    ∀ nf ∈ nfList, ∀ r, simRes o nf (load_loads records) pre = .ok r →
      ¬(u ∈ r.isol ∧ v ∈ r.isol) := by
  rw [scanRes] at hscan
  cases hval : scanNFs o (load_loads records) u v nfList (clearAllCompile o pre) with
  | error e => rw [hval] at hscan; cases hscan
  | ok p =>
    obtain ⟨cands, st'⟩ := p
    rw [hval] at hscan
    simp only [Except.map, Except.ok.injEq] at hscan
    subst hscan
    constructor
    · simp only [isolamento, htopo, hval]
      rfl
    · intro nf hmem r hr
      exact scanNFs_ok_nil o (load_loads records) u v nfList
        (clearAllCompile o pre) st' hval nf hmem r
        ((simRes_state_indep o nf (load_loads records)
          (clearAllCompile o pre) pre).trans hr)

/-- Witness for C5: on  `oNone` every bus stays energized for every
candidate, so the scan is empty and the query answers `nenhuma`. -/
theorem C5_no_isolating_switch_witness :
    (getA (buildTopo oNone) "l1" = some ("b1", "b2")) ∧
    (scanRes oNone (load_loads []) "b1" "b2" nfList
      (clearAllCompile oNone (fun _ => false)) = .ok []) ∧
    isolamento oNone [] "l1" (fun _ => false) = .ok .nenhuma := by
  have htopo : getA (buildTopo oNone) "l1" = some ("b1", "b2") := by decide
  have hscan : scanRes oNone (load_loads []) "b1" "b2" nfList
      (clearAllCompile oNone (fun _ => false)) = .ok [] := by
    norm_num [scanRes, scanNFs, simulate_nf, oNone, setupConfig, nfList, naList,
      clearAllCompile, openSw, closeSw, barras_por_fluxo, pyMax, stride2,
      normalize, takeUntilDot, getD, getA, load_loads, Except.map]
  exact ⟨htopo, hscan,
    (C5_no_isolating_switch oNone [] "l1" (fun _ => false) "b1" "b2" htopo hscan).1⟩

/-- Counterexample for C2: on `oFail` the solver fails while candidate
`sw1` is being evaluated, and the whole query aborts with the propagated
`SolverError` instead of marking the candidate as failed and scanning on. -/
theorem C2_counterexample_abort :
    isolamento oFail [] "l1" (fun _ => false) = .error () := rfl

/-- C2 as amended.  The code has no handler around `Solve`: a
`SolverError` raised during one candidate's evaluation propagates — the
scan stops at the failing candidate, and when the topology lookup had
succeeded the whole `/isolamento` query aborts with that error instead of
excluding the candidate and continuing. -/
theorem C2_amended_solver_error_aborts :
    (∀ (o : Oracle) (loads : List (String × ℚ)) (u v nf : String)
        (rest : List String) (st : String → Bool) (e : SolverError),
      simRes o nf loads st = .error e →
      scanRes o loads u v (nf :: rest) st = .error e) ∧
    (∀ (o : Oracle) (records : List LoadEntry) (vao : String)
        (pre : String → Bool) (u v : String) (e : SolverError),
      getA (buildTopo o) vao = some (u, v) →
      scanRes o (load_loads records) u v nfList (clearAllCompile o pre)
        = .error e →
      isolamento o records vao pre = .error e) := by
  constructor
  · intro o loads u v nf rest st e hsim
    cases e
    cases hval : simulate_nf o nf loads st with
    | error e' =>
      cases e'
      rw [scanRes]
      simp only [scanNFs, hval]
      rfl
    | ok p =>
      rw [simRes] at hsim
      simp only [hval, Except.map] at hsim
      cases hsim
  · intro o records vao pre u v e htopo hfail
    cases e
    cases hval : scanNFs o (load_loads records) u v nfList (clearAllCompile o pre) with
    | error e' =>
      cases e'
      simp only [isolamento, htopo, hval]
    | ok p =>
      rw [scanRes] at hfail
      simp only [hval, Except.map] at hfail
      cases hfail

/-- Witness for C2's amended statement: on `oFail` the topology lookup
succeeds, the scan fails at `sw1`, and the query propagates the error. -/
theorem C2_amended_solver_error_aborts_witness :
    (getA (buildTopo oFail) "l1" = some ("b1", "b2")) ∧
    (scanRes oFail (load_loads []) "b1" "b2" nfList
      (clearAllCompile oFail (fun _ => false)) = .error ()) ∧
    isolamento oFail [] "l1" (fun _ => false) = .error () := by
  have htopo : getA (buildTopo oFail) "l1" = some ("b1", "b2") := by decide
  have hfail : scanRes oFail (load_loads []) "b1" "b2" nfList
      (clearAllCompile oFail (fun _ => false)) = .error () := rfl
  exact ⟨htopo, hfail,
    C2_amended_solver_error_aborts.2 oFail [] "l1" (fun _ => false) "b1" "b2" ()
      htopo hfail⟩

theorem scanTrace_of_ok (o : Oracle) (loads : List (String × ℚ)) (u v : String) :
    ∀ (nfs : List String) (st : String → Bool)
      (p : List (String × ℚ × ℕ) × (String → Bool)),
      scanNFs o loads u v nfs st = .ok p → scanTrace o loads nfs st = nfs := by
  intro nfs
  induction nfs with
  | nil => intro st p _; rfl
  | cons nf rest ih =>
    intro st p h
    simp only [scanNFs] at h
    cases hsim : simulate_nf o nf loads st with
    | error e => simp only [hsim] at h; cases h
    | ok q =>
      obtain ⟨r0, st0⟩ := q
      simp only [hsim] at h
      cases hrest : scanNFs o loads u v rest st0 with
      | error e => simp only [hrest] at h; cases h
      | ok q2 =>
        simp only [scanTrace, hsim]
        rw [ih st0 q2 hrest]

theorem isolamento_winner_inversion (o : Oracle) (records : List LoadEntry)
    (vao : String) (pre : String → Bool) (vao' u v nf : String)
    (barras : Finset String) (kw : ℚ)
    (h : isolamento o records vao pre = .ok (.winner vao' u v nf barras kw)) :
    ∃ uv cands st' best rest,
      getA (buildTopo o) vao = some uv ∧
      scanNFs o (load_loads records) uv.1 uv.2 nfList (clearAllCompile o pre)
        = .ok (cands, st') ∧
      sortCands cands = best :: rest ∧
      vao' = vao ∧ u = uv.1 ∧ v = uv.2 ∧ nf = best.1 := by
  simp only [isolamento] at h
  cases htopo : getA (buildTopo o) vao with
  | none => simp only [htopo] at h; cases h
  | some uv =>
    simp only [htopo] at h
    cases hscan : scanNFs o (load_loads records) uv.1 uv.2 nfList
        (clearAllCompile o pre) with
    | error e => simp only [hscan] at h; cases h
    | ok p =>
      obtain ⟨cands, st'⟩ := p
      simp only [hscan] at h
      by_cases hc : cands = []
      · rw [if_pos hc] at h; cases h
      · rw [if_neg hc] at h
        cases hsort : sortCands cands with
        | nil => simp only [hsort] at h; cases h
        | cons best rest =>
          simp only [hsort] at h
          cases hsim : simulate_nf o best.1 (load_loads records) st' with
          | error e => simp only [hsim] at h; cases h
          | ok q =>
            obtain ⟨r, st2⟩ := q
            simp only [hsim, Except.ok.injEq, IsoResponse.winner.injEq] at h
            obtain ⟨h1, h2, h3, h4, _, _⟩ := h
            exact ⟨uv, cands, st', best, rest, rfl, hscan, hsort,
              h1.symm, h2.symm, h3.symm, h4.symm⟩

/-- Counterexample for C7: on the concrete circuit `oW`, answering the
query for span `l1` invokes `simulate_nf` (and hence one solver run) seven
times — once per candidate in the scan plus a second time for the winning
candidate `sw1`, whose invocation count is 2, not 1. -/
theorem C7_counterexample_winner_simulated_twice :
    isolamentoTrace oW [] "l1" (fun _ => false)
      = ["sw1", "sw2", "sw3", "sw4", "sw5", "sw6", "sw1"] ∧
    (isolamentoTrace oW [] "l1" (fun _ => false)).count "sw1" = 2 := by
  have h : isolamentoTrace oW [] "l1" (fun _ => false)
      = ["sw1", "sw2", "sw3", "sw4", "sw5", "sw6", "sw1"] := by
    norm_num [isolamentoTrace, scanTrace, buildTopo, updateAssoc, getA, getD,
      clearAllCompile, scanNFs, simulate_nf, oW, setupConfig, nfList, naList,
      openSw, closeSw, barras_por_fluxo, pyMax, stride2, normalize, takeUntilDot,
      load_loads, sortCands, insCand, lt2]
    decide
  exact ⟨h, by rw [h]; decide⟩

/-- C7 as amended.  During one successful `/isolamento` query each of the
six candidates is simulated exactly once in the scan, and the winning
candidate is then simulated one additional time to regenerate its
isolated-bus set for the response: the call trace is `nfList ++ [winner]`,
so the winner is evaluated twice and every other candidate once. -/
theorem C7_amended_one_scan_plus_winner (o : Oracle) (records : List LoadEntry)
    (vao : String) (pre : String → Bool) (vao' u v nf : String)
    (barras : Finset String) (kw : ℚ)
    (hwin : isolamento o records vao pre = .ok (.winner vao' u v nf barras kw)) :
    isolamentoTrace o records vao pre = nfList ++ [nf] := by
  obtain ⟨uv, cands, st', best, rest, htopo, hscan, hsort, _, _, _, hnf⟩ :=
    isolamento_winner_inversion o records vao pre vao' u v nf barras kw hwin
  have hc : cands ≠ [] := by
    intro hc
    rw [hc] at hsort
    cases hsort
  simp only [isolamentoTrace, htopo, hscan, if_neg hc, hsort]
  rw [scanTrace_of_ok o (load_loads records) uv.1 uv.2 nfList
    (clearAllCompile o pre) (cands, st') hscan, hnf]

/-- Witness for C7's amended statement: on `oW` the winner is `sw1` and the
trace is the scan over all six candidates followed by the winner's
re-simulation. -/
theorem C7_amended_one_scan_plus_winner_witness :
    (isolamento oW [] "l1" (fun _ => false)
      = .ok (.winner "l1" "b1" "b2" "sw1" {"b1", "b2", "b3"} 0)) ∧
    isolamentoTrace oW [] "l1" (fun _ => false) = nfList ++ ["sw1"] := by
  have hwin : isolamento oW [] "l1" (fun _ => false)
      = .ok (.winner "l1" "b1" "b2" "sw1" {"b1", "b2", "b3"} 0) := by
    norm_num [isolamento, buildTopo, updateAssoc, getA, getD, clearAllCompile,
      scanNFs, simulate_nf, oW, setupConfig, nfList, naList, openSw, closeSw,
      barras_por_fluxo, pyMax, stride2, normalize, takeUntilDot, load_loads,
      sortCands, insCand, lt2, Except.map]
    decide
  exact ⟨hwin, C7_amended_one_scan_plus_winner oW [] "l1" (fun _ => false)
    "l1" "b1" "b2" "sw1" {"b1", "b2", "b3"} 0 hwin⟩

theorem lt2_trans {a b c : ℚ × ℕ} (h₁ : lt2 a b) (h₂ : lt2 b c) : lt2 a c := by
  rcases h₁ with h | ⟨e₁, l₁⟩
  · rcases h₂ with h' | ⟨e₂, l₂⟩
    · exact Or.inl (h.trans h')
    · exact Or.inl (lt_of_lt_of_eq h e₂)
  · rcases h₂ with h' | ⟨e₂, l₂⟩
    · exact Or.inl (lt_of_eq_of_lt e₁ h')
    · exact Or.inr ⟨e₁.trans e₂, l₁.trans l₂⟩

theorem lt2_eq_of_not {a b : ℚ × ℕ} (h₁ : ¬lt2 a b) (h₂ : ¬lt2 b a) : a = b := by
  rw [lt2] at h₁ h₂
  push_neg at h₁ h₂
  obtain ⟨h1a, h1b⟩ := h₁
  obtain ⟨h2a, h2b⟩ := h₂
  have e1 : a.1 = b.1 := le_antisymm h2a h1a
  have e2 : a.2 = b.2 := le_antisymm (h2b e1.symm) (h1b e1)
  exact Prod.ext e1 e2

theorem le3_refl (a : String × ℚ × ℕ) : le3 a a := Or.inr ⟨rfl, Or.inr rfl⟩

theorem mem_insCand (x z : String × ℚ × ℕ) (l : List (String × ℚ × ℕ)) :
    z ∈ insCand x l ↔ z = x ∨ z ∈ l := by
  induction l with
  | nil => simp [insCand]
  | cons y ys ih =>
    rw [insCand]
    by_cases h : lt2 (x.2.1, x.2.2) (y.2.1, y.2.2)
    · rw [if_pos h]
      simp [List.mem_cons]
    · rw [if_neg h]
      simp [List.mem_cons, ih]
      tauto

theorem insCand_perm (x : String × ℚ × ℕ) (l : List (String × ℚ × ℕ)) :
    (insCand x l).Perm (x :: l) := by
  induction l with
  | nil => exact List.Perm.refl _
  | cons y ys ih =>
    rw [insCand]
    by_cases h : lt2 (x.2.1, x.2.2) (y.2.1, y.2.2)
    · rw [if_pos h]
    · rw [if_neg h]
      exact (ih.cons y).trans (List.Perm.swap x y ys)

theorem foldl_ins_perm (l acc : List (String × ℚ × ℕ)) :
    (l.foldl (fun a x => insCand x a) acc).Perm (acc ++ l) := by
  induction l generalizing acc with
  | nil => simp
  | cons x xs ih =>
    rw [List.foldl_cons]
    refine ((ih (insCand x acc)).trans ?_)
    refine (((insCand_perm x acc).append_right xs).trans ?_)
    exact List.perm_middle.symm

theorem sortCands_perm (l : List (String × ℚ × ℕ)) : (sortCands l).Perm l := by
  have h := foldl_ins_perm l []
  simpa [sortCands] using h

theorem insCand_sorted (x : String × ℚ × ℕ) (l : List (String × ℚ × ℕ))
    (hl : l.Pairwise le3) (hid : ∀ a ∈ l, idLt a.1 x.1 = true) :
    (insCand x l).Pairwise le3 := by
  induction l with
  | nil => simp [insCand]
  | cons y ys ih =>
    rw [insCand]
    rcases List.pairwise_cons.mp hl with ⟨hy, hys⟩
    by_cases h : lt2 (x.2.1, x.2.2) (y.2.1, y.2.2)
    · rw [if_pos h]
      refine List.Pairwise.cons ?_ hl
      intro z hz
      rcases List.mem_cons.mp hz with hz | hz
      · subst hz
        exact Or.inl h
      · rcases hy z hz with hlt | ⟨heqk, _⟩
        · exact Or.inl (lt2_trans h hlt)
        · exact Or.inl (heqk ▸ h)
    · rw [if_neg h]
      refine List.Pairwise.cons ?_
        (ih hys (fun a ha => hid a (List.mem_cons_of_mem y ha)))
      intro z hz
      rcases (mem_insCand x z ys).mp hz with hz | hz
      · subst hz
        by_cases h2 : lt2 (y.2.1, y.2.2) (z.2.1, z.2.2)
        · exact Or.inl h2
        · have heq : (y.2.1, y.2.2) = (z.2.1, z.2.2) := lt2_eq_of_not h2 h
          exact Or.inr ⟨heq, Or.inl (hid y (List.mem_cons_self y ys))⟩
      · exact hy z hz

theorem foldl_ins_sorted :
    ∀ (l acc : List (String × ℚ × ℕ)),
      acc.Pairwise le3 →
      (∀ a ∈ acc, ∀ x ∈ l, idLt a.1 x.1 = true) →
      l.Pairwise (fun a b => idLt a.1 b.1 = true) →
      (l.foldl (fun a x => insCand x a) acc).Pairwise le3 := by
  intro l
  induction l with
  | nil =>
    intro acc h _ _
    simpa using h
  | cons x xs ih =>
    intro acc hacc hsep hl
    rw [List.foldl_cons]
    rcases List.pairwise_cons.mp hl with ⟨hx, hxs⟩
    apply ih
    · exact insCand_sorted x acc hacc
        (fun a ha => hsep a ha x (List.mem_cons_self x xs))
    · intro a ha y hy
      rcases (mem_insCand x a acc).mp ha with ha | ha
      · subst ha
        exact hx y hy
      · exact hsep a ha y (List.mem_cons_of_mem x hy)
    · exact hxs

theorem sortCands_sorted (l : List (String × ℚ × ℕ))
    (hl : l.Pairwise (fun a b => idLt a.1 b.1 = true)) :
    (sortCands l).Pairwise le3 :=
  foldl_ins_sorted l [] List.Pairwise.nil (by simp) hl

theorem sortCands_head_min (l : List (String × ℚ × ℕ))
    (hl : l.Pairwise (fun a b => idLt a.1 b.1 = true))
    (best : String × ℚ × ℕ) (rest : List (String × ℚ × ℕ))
    (h : sortCands l = best :: rest) :
    best ∈ l ∧ ∀ c ∈ l, le3 best c := by
  have hperm := sortCands_perm l
  have hsorted := sortCands_sorted l hl
  rw [h] at hperm hsorted
  constructor
  · exact hperm.mem_iff.mp (List.mem_cons_self best rest)
  · intro c hc
    rcases List.mem_cons.mp (hperm.mem_iff.mpr hc) with hc' | hc'
    · subst hc'
      exact le3_refl c
    · exact (List.pairwise_cons.mp hsorted).1 c hc'

theorem scanNFs_map_fst_sublist (o : Oracle) (loads : List (String × ℚ)) (u v : String) :
    ∀ (nfs : List String) (st : String → Bool) (cands : List (String × ℚ × ℕ))
      (st' : String → Bool),
      scanNFs o loads u v nfs st = .ok (cands, st') →
      (cands.map Prod.fst).Sublist nfs := by
  intro nfs
  induction nfs with
  | nil =>
    intro st cands st' h
    simp only [scanNFs, Except.ok.injEq, Prod.mk.injEq] at h
    rw [← h.1]
    simp
  | cons nf rest ih =>
    intro st cands st' h
    simp only [scanNFs] at h
    cases hsim : simulate_nf o nf loads st with
    | error e => simp only [hsim] at h; cases h
    | ok p =>
      obtain ⟨r0, st0⟩ := p
      simp only [hsim] at h
      cases hrest : scanNFs o loads u v rest st0 with
      | error e => simp only [hrest] at h; cases h
      | ok q =>
        obtain ⟨cands', st''⟩ := q
        simp only [hrest] at h
        by_cases hc : u ∈ r0.isol ∧ v ∈ r0.isol
        · rw [if_pos hc] at h
          simp only [Except.ok.injEq, Prod.mk.injEq] at h
          rw [← h.1, List.map_cons]
          exact List.Sublist.cons₂ nf (ih st0 cands' st'' hrest)
        · rw [if_neg hc] at h
          simp only [Except.ok.injEq, Prod.mk.injEq] at h
          rw [← h.1]
          exact List.Sublist.cons nf (ih st0 cands' st'' hrest)

theorem nfList_pairwise_idLt : nfList.Pairwise (fun a b => idLt a b = true) := by
  decide

theorem cands_pairwise_idLt (o : Oracle) (loads : List (String × ℚ)) (u v : String)
    (st : String → Bool) (cands : List (String × ℚ × ℕ)) (st' : String → Bool)
    (h : scanNFs o loads u v nfList st = .ok (cands, st')) :
    cands.Pairwise (fun a b => idLt a.1 b.1 = true) := by
  have hsub := scanNFs_map_fst_sublist o loads u v nfList st cands st' h
  have hnf := nfList_pairwise_idLt
  have hmap := List.Pairwise.sublist hsub hnf
  rwa [List.pairwise_map] at hmap

/-- C1.  When a `/isolamento` query returns a winner, that winner belongs
to the candidate list produced by the scan and its triple
`(switchId, interruptedKW, |isolatedBuses|)` is minimal among all
candidates under the lexicographic order `le3` on
`(interruptedKW, |isolatedBuses|, switchId)`: equal-kW ties fall to the
candidate with fewer isolated buses, and full key ties to the lower switch
identifier (the sort key is only `(kW, n)`, but Python's sort is stable and
the candidates enter it in ascending `sw1..sw6` identifier order). -/
theorem C1_best_switch_lex_minimal (o : Oracle) (records : List LoadEntry)
    (vao : String) (pre : String → Bool) (vao' u v nf : String)
    (barras : Finset String) (kw : ℚ) (cands : List (String × ℚ × ℕ))
    (hscan : scanRes o (load_loads records) u v nfList (clearAllCompile o pre)
      = .ok cands)
    (hwin : isolamento o records vao pre = .ok (.winner vao' u v nf barras kw)) :
    ∃ kw' n, (nf, kw', n) ∈ cands ∧ ∀ c ∈ cands, le3 (nf, kw', n) c := by
  obtain ⟨uv, cands₀, st', best, rest, htopo, hscan₀, hsort, _, hu, hv, hnf⟩ :=
    isolamento_winner_inversion o records vao pre vao' u v nf barras kw hwin
  subst hu
  subst hv
  have hres : scanRes o (load_loads records) uv.1 uv.2 nfList (clearAllCompile o pre)
      = .ok cands₀ := by
    rw [scanRes, hscan₀]
    rfl
  rw [hres] at hscan
  simp only [Except.ok.injEq] at hscan
  subst hscan
  have hpair := cands_pairwise_idLt o (load_loads records) uv.1 uv.2
    (clearAllCompile o pre) cands₀ st' hscan₀
  obtain ⟨hmem, hmin⟩ := sortCands_head_min cands₀ hpair best rest hsort
  subst hnf
  exact ⟨best.2.1, best.2.2, hmem, hmin⟩

/-- Witness for C1: on `oW` the only candidate is `sw1` with key `(0, 3)`,
and the winner returned is le3-minimal in the candidate list. -/
theorem C1_best_switch_lex_minimal_witness :
    (scanRes oW (load_loads []) "b1" "b2" nfList (clearAllCompile oW (fun _ => false))
      = .ok [("sw1", 0, 3)]) ∧
    (isolamento oW [] "l1" (fun _ => false)
      = .ok (.winner "l1" "b1" "b2" "sw1" {"b1", "b2", "b3"} 0)) ∧
    ∃ kw' n, ("sw1", kw', n) ∈ [(("sw1" : String), (0 : ℚ), 3)] ∧
      ∀ c ∈ [(("sw1" : String), (0 : ℚ), 3)], le3 ("sw1", kw', n) c := by
  have hscan : scanRes oW (load_loads []) "b1" "b2" nfList
      (clearAllCompile oW (fun _ => false)) = .ok [("sw1", 0, 3)] := by
    norm_num [scanRes, scanNFs, simulate_nf, oW, setupConfig, nfList, naList,
      clearAllCompile, openSw, closeSw, barras_por_fluxo, pyMax, stride2,
      normalize, takeUntilDot, getD, getA, load_loads, Except.map]
    decide
  have hwin : isolamento oW [] "l1" (fun _ => false)
      = .ok (.winner "l1" "b1" "b2" "sw1" {"b1", "b2", "b3"} 0) := by
    norm_num [isolamento, buildTopo, updateAssoc, getA, getD, clearAllCompile,
      scanNFs, simulate_nf, oW, setupConfig, nfList, naList, openSw, closeSw,
      barras_por_fluxo, pyMax, stride2, normalize, takeUntilDot, load_loads,
      sortCands, insCand, lt2, Except.map]
    decide
  exact ⟨hscan, hwin,
    C1_best_switch_lex_minimal oW [] "l1" (fun _ => false) "l1" "b1" "b2" "sw1"
      {"b1", "b2", "b3"} 0 [("sw1", 0, 3)] hscan hwin⟩

end TCC
